import Mathlib

/-
  Verification development for the Light-zai terminal client
  (streaming chat-completions decoder and tool-calling orchestrator).

  The JavaScript source is embedded shallowly:
  - JS strings are modelled as lists of characters (Str), so that the
    chunk/line splitting done by the stream decoder can be reasoned about
    at character granularity;
  - the JSON.parse of a frame payload is modelled as an abstract parameter
    parse : Str -> Option Frame (JSON.parse is a JS builtin, not repository
    code); a parse result of none models a thrown parse exception;
  - callbacks (onToken, onReasoning) are instrumented as event lists inside
    the accumulator state;
  - the Transport (zaiChatStream) is modelled as a script: a list of round
    results, where Except.error models a rejected request (network error,
    timeout, or non-2xx status).
-/

set_option maxRecDepth 4096

/-- Model of a JavaScript string: a list of characters. -/
abbrev Str := List Char

/-- Coerce a Lean string literal to the character-list model. -/
def str (s : String) : Str := s.data

/-- Model of String.prototype.split over the newline character, as used by
    httpStream: buffer.split sends "a\nb" to ["a", "b"] and "" to [""]. -/
def splitLines : List Char → List (List Char)
  | [] => [[]]
  | ch :: rest =>
    match splitLines rest with
    | [] => [[]]
    | l :: ls => if ch = '\n' then [] :: l :: ls else (ch :: l) :: ls

/-- Combined model of the split-then-pop step of httpStream: returns the
    complete lines and the held-back trailing buffer in one pass. Proved
    equal to splitLines followed by dropLast and getLastD below. -/
def splitParts : List Char → List (List Char) × List Char
  | [] => ([], [])
  | ch :: rest =>
    match splitParts rest with
    | (ls, buf) =>
      if ch = '\n' then ([] :: ls, buf)
      else
        match ls with
        | [] => ([], ch :: buf)
        | l :: ls2 => ((ch :: l) :: ls2, buf)

/-- Model of String.prototype.trim: drop whitespace from both ends. -/
def trimChars (cs : List Char) : List Char :=
  ((cs.dropWhile Char.isWhitespace).reverse.dropWhile Char.isWhitespace).reverse

/-- Fragment of a streamed tool call: models the object
    tc.function carried by a tool-call delta, with both fields optional. -/
structure FunctionDelta where
  name : Option Str := none
  arguments : Option Str := none
deriving DecidableEq

/-- One entry of choices[0].delta.tool_calls in a decoded frame. -/
structure ToolCallDelta where
  index : Nat
  id : Option Str := none
  type : Option Str := none
  function : Option FunctionDelta := none
deriving DecidableEq

/-- choices[0].delta of a decoded frame. -/
structure Delta where
  reasoning_content : Option Str := none
  content : Option Str := none
  tool_calls : Option (List ToolCallDelta) := none
deriving DecidableEq

/-- One element of the choices array of a decoded frame. -/
structure Choice where
  finish_reason : Option Str := none
  delta : Option Delta := none
deriving DecidableEq

/-- One decoded StreamFrame (the JSON object of a data: line). The uninterpreted
    usage and web_search payloads are modelled as strings; a field value of
    some p means the field is present and truthy in the parsed JSON. -/
structure Frame where
  web_search : Option Str := none
  usage : Option Str := none
  choices : List Choice := []
deriving DecidableEq

/-- Accumulator slot for one streamed tool call: models the object
    stored at toolCalls[idx] by httpStream. -/
structure ToolCallAcc where
  id : Str
  type : Str
  name : Str
  args : Str
deriving DecidableEq

/-- Model of the JS object assignment toolCalls[idx] = v: replace the slot
    in place when the key exists, otherwise create it. -/
def setKey : List (Nat × ToolCallAcc) → Nat → ToolCallAcc → List (Nat × ToolCallAcc)
  | [], k, v => [(k, v)]
  | (k0, v0) :: rest, k, v =>
    if k0 = k then (k, v) :: rest else (k0, v0) :: setKey rest k v

/-- Model of the guarded JS mutation (toolCalls[idx] && mutate): apply f to
    the slot when the key exists, otherwise leave the map unchanged. -/
def modifyKey : List (Nat × ToolCallAcc) → Nat → (ToolCallAcc → ToolCallAcc) → List (Nat × ToolCallAcc)
  | [], _, _ => []
  | (k0, v0) :: rest, k, f =>
    if k0 = k then (k0, f v0) :: rest else (k0, v0) :: modifyKey rest k f

/-- Model of the JS expression tc.type || a fallback of "function". -/
def typeOrFunction : Option Str → Str
  | some t => if t.isEmpty then str "function" else t
  | none => str "function"

/-- Fold one tool-call delta entry into the sparse accumulator, following
    httpStream: a truthy id initializes (or resets) the slot; a truthy
    function.name overwrites the name when the slot exists; a truthy
    function.arguments is appended to the arguments when the slot exists. -/
def applyTcDelta (m : List (Nat × ToolCallAcc)) (tc : ToolCallDelta) : List (Nat × ToolCallAcc) :=
  let m1 :=
    match tc.id with
    | some i => if i.isEmpty then m else setKey m tc.index ⟨i, typeOrFunction tc.type, [], []⟩
    | none => m
  let fname := match tc.function with | some fd => fd.name | none => none
  let fargs := match tc.function with | some fd => fd.arguments | none => none
  let m2 :=
    match fname with
    | some n => if n.isEmpty then m1 else modifyKey m1 tc.index (fun a => { a with name := n })
    | none => m1
  match fargs with
  | some g => if g.isEmpty then m2 else modifyKey m2 tc.index (fun a => { a with args := a.args ++ g })
  | none => m2

/-- Mutable accumulator state of one httpStream call. The tokenEvents and
    reasonEvents fields instrument the onToken and onReasoning callback
    invocations (one list element per invocation, in stream order). -/
structure AggState where
  content : Str := []
  reasoning : Str := []
  toolCalls : List (Nat × ToolCallAcc) := []
  finishReason : Option Str := none
  usage : Option Str := none
  webSearch : Option Str := none
  tokenEvents : List Str := []
  reasonEvents : List Str := []
deriving DecidableEq

/-- Initial accumulator state of httpStream. -/
def initAgg : AggState := {}

/-- Fold one decoded frame into the accumulator, following the body of the
    try block in httpStream. -/
def processFrame (s : AggState) (f : Frame) : AggState :=
  let s1 := match f.web_search with
    | some w => { s with webSearch := some w }
    | none => s
  let s2 := match f.usage with
    | some u => { s1 with usage := some u }
    | none => s1
  match f.choices.head? with
  | none => s2
  | some ch =>
    let s3 := match ch.finish_reason with
      | some fr => if fr.isEmpty then s2 else { s2 with finishReason := some fr }
      | none => s2
    match ch.delta with
    | none => s3
    | some d =>
      let s4 := match d.reasoning_content with
        | some rc =>
          if rc.isEmpty then s3
          else { s3 with reasoning := s3.reasoning ++ rc, reasonEvents := s3.reasonEvents ++ [rc] }
        | none => s3
      let s5 := match d.content with
        | some ct =>
          if ct.isEmpty then s4
          else { s4 with content := s4.content ++ ct, tokenEvents := s4.tokenEvents ++ [ct] }
        | none => s4
      match d.tool_calls with
      | some tcs => { s5 with toolCalls := tcs.foldl applyTcDelta s5.toolCalls }
      | none => s5

/-- Process one complete line, following httpStream: skip blank lines and
    lines without the data: prefix, strip and trim the payload, skip the
    terminal sentinel, and fold the parsed frame; a failed parse is a
    silently ignored no-op. -/
def processLine (parse : Str → Option Frame) (s : AggState) (line : Str) : AggState :=
  let trimmed := trimChars line
  if trimmed = [] then s
  else if !((str "data:").isPrefixOf trimmed) then s
  else
    let payload := trimChars (trimmed.drop 5)
    if payload = str "[DONE]" then s
    else
      match parse payload with
      | none => s
      | some f => processFrame s f

/-- Decoder state across chunk arrivals: the carry-over buffer plus the
    accumulator. -/
structure DecState where
  buffer : Str
  agg : AggState
deriving DecidableEq

/-- Initial decoder state. -/
def initDec : DecState := ⟨[], initAgg⟩

/-- Process one arriving chunk, following the data handler of httpStream:
    append to the buffer, split on newline, hold back the final segment as
    the new buffer, and process every earlier segment as a complete line. -/
def feedChunk (parse : Str → Option Frame) (st : DecState) (chunk : Str) : DecState :=
  let lines := splitLines (st.buffer ++ chunk)
  { buffer := lines.getLastD [], agg := lines.dropLast.foldl (processLine parse) st.agg }

/-- Concatenation of a chunk sequence into the full stream text. -/
def joinAll : List Str → Str
  | [] => []
  | c :: cs => c ++ joinAll cs

/-- Finalized result of one stream, as resolved by httpStream on end. -/
structure AggregatedResult where
  content : Str
  reasoning : Str
  toolCalls : Option (List ToolCallAcc)
  finishReason : Option Str
  usage : Option Str
  webSearch : Option Str
deriving DecidableEq

/-- Sorted insertion of one keyed slot, used to model the ascending
    integer-key enumeration order of a JS object. -/
def insertByKey (p : Nat × ToolCallAcc) : List (Nat × ToolCallAcc) → List (Nat × ToolCallAcc)
  | [] => [p]
  | q :: rest => if p.1 ≤ q.1 then p :: q :: rest else q :: insertByKey p rest

/-- Enumeration of the sparse accumulator slots in ascending key order:
    models the traversal order of Object.values over an object whose keys
    are array indices (JS enumerates such keys in ascending numeric order,
    regardless of insertion order). -/
def objEntries : List (Nat × ToolCallAcc) → List (Nat × ToolCallAcc)
  | [] => []
  | p :: rest => insertByKey p (objEntries rest)

/-- Model of Object.values(toolCalls) in httpStream. -/
def objValues (m : List (Nat × ToolCallAcc)) : List ToolCallAcc :=
  (objEntries m).map Prod.snd

/-- Finalization performed by the end handler of httpStream: convert the
    sparse accumulator to a list and apply the null-versus-empty convention
    (tcArray.length > 0 ? tcArray : null). -/
def finalize (s : AggState) : AggregatedResult :=
  let tcArray := objValues s.toolCalls
  { content := s.content
    reasoning := s.reasoning
    toolCalls := if tcArray.length > 0 then some tcArray else none
    finishReason := s.finishReason
    usage := s.usage
    webSearch := s.webSearch }

/-- Accumulator state after processing a list of complete lines. -/
def linesAgg (parse : Str → Option Frame) (lines : List Str) : AggState :=
  lines.foldl (processLine parse) initAgg

/-- Aggregated result after processing a list of complete lines. -/
def runLines (parse : Str → Option Frame) (lines : List Str) : AggregatedResult :=
  finalize (linesAgg parse lines)

/-- Full streaming decoder: feed the chunks one at a time from the initial
    state and finalize on stream end. -/
def runStream (parse : Str → Option Frame) (chunks : List Str) : AggregatedResult :=
  finalize ((chunks.foldl (feedChunk parse) initDec).agg)

/-- Accumulator state reached by the full streaming decoder. -/
def streamAgg (parse : Str → Option Frame) (chunks : List Str) : AggState :=
  (chunks.foldl (feedChunk parse) initDec).agg

/-- Model of the JS value produced by JSON.parse of a tool-call arguments
    string. The empty object substituted on parse failure is obj []. -/
inductive JsArgs where
  | obj : List (Str × Str) → JsArgs
  | other : Str → JsArgs
deriving DecidableEq

/-- Result object returned by a tool handler, as consumed by the protocol
    layer (only success and denied are inspected by the claims). -/
structure ToolResult where
  success : Bool
  denied : Bool := false
  message : Option Str := none
  error : Option Str := none
  output : Option Str := none
deriving DecidableEq

/-- Model of JSON.stringify applied to a tool result before it is placed
    into a tool message content field. -/
def stringifyResult (r : ToolResult) : Str :=
  (str "\x7b\"success\":") ++ (if r.success then str "true" else str "false")
    ++ (if r.denied then str ",\"denied\":true" else [])
    ++ (match r.message with
        | some m => (str ",\"message\":\"") ++ m ++ (str "\"")
        | none => [])
    ++ (match r.error with
        | some e => (str ",\"error\":\"") ++ e ++ (str "\"")
        | none => [])
    ++ (match r.output with
        | some o => (str ",\"output\":\"") ++ o ++ (str "\"")
        | none => [])
    ++ (str "\x7d")

/-- Lower-case a model string, as answer.toLowerCase() does. -/
def toLowerStr (cs : Str) : Str := cs.map Char.toLower

/-- Model of promptUser: when a readline instance is configured, ask it and
    normalize the answer (trim and lower-case); outside the REPL there is
    no confirmation channel and the answer resolves to "n". -/
def promptUser (rl : Option (Str → Str)) (question : Str) : Str :=
  match rl with
  | some ask => toLowerStr (trimChars (ask question))
  | none => str "n"

/-- Arguments object of the run_with_approval tool. -/
structure ApprovalArgs where
  description : Str
  command : Str

/-- Denial message placed in the tool result when the user refuses. -/
def deniedMessage : Str := str "사용자가 실행을 거부했습니다"

/-- Model of the run_with_approval case of executeTool: prompt for a yes or
    no answer and dispatch the embedded command only on an affirmative
    answer (y, yes, or the Korean keyboard variant). The second component
    records every invocation of the underlying command dispatcher. -/
def runWithApproval (rl : Option (Str → Str)) (dispatch : Str → ToolResult)
    (args : ApprovalArgs) : ToolResult × List Str :=
  let answer := promptUser rl (str "  실행할까요? (y/n) ")
  if answer = str "y" ∨ answer = str "yes" ∨ answer = str "ㅛ" then
    (dispatch args.command, [args.command])
  else
    ({ success := false, denied := true, message := some deniedMessage }, [])

/-- Role of a conversation message. -/
inductive Role where
  | system
  | user
  | assistant
  | tool
deriving DecidableEq, BEq

/-- One entry of the conversation log. A finalized tool-call request has
    the same shape as an accumulator slot, so ToolCallAcc is reused. -/
structure Message where
  role : Role
  content : Option Str := none
  tool_calls : Option (List ToolCallAcc) := none
  tool_call_id : Option Str := none
deriving DecidableEq

/-- Model of the argument decoding step of the orchestrator: attempt a JSON
    decode of the arguments string and substitute an empty object on
    failure. argParse is the abstract JSON.parse; none models a throw. -/
def parseToolArgs (argParse : Str → Option JsArgs) (s : Str) : JsArgs :=
  match argParse s with
  | some v => v
  | none => JsArgs.obj []

/-- Dispatch one tool call as the orchestrator loop does: decode arguments,
    execute the tool, and build the tool message carrying the stringified
    result and the originating call id. The second component records the
    dispatched name and decoded arguments. -/
def runToolCall (argParse : Str → Option JsArgs) (exec : Str → JsArgs → ToolResult)
    (tc : ToolCallAcc) : Message × (Str × JsArgs) :=
  let toolArgs := parseToolArgs argParse tc.args
  let toolResult := exec tc.name toolArgs
  ({ role := Role.tool, content := some (stringifyResult toolResult), tool_call_id := some tc.id },
   (tc.name, toolArgs))

/-- Assistant message appended when a round completed with tool calls:
    content is current.content or null when empty, plus the tool calls. -/
def assistantToolMessage (r : AggregatedResult) (tcs : List ToolCallAcc) : Message :=
  { role := Role.assistant
    content := if r.content.isEmpty then none else some r.content
    tool_calls := some tcs }

/-- Final assistant message appended when a turn terminates: content is
    current.content or the empty string. -/
def finalAssistantMessage (r : AggregatedResult) : Message :=
  { role := Role.assistant, content := some r.content }

/-- Tool-call loop of the part_000 variant of sendMessageStream: while the
    current result carries a non-null tool-call list and tools are enabled,
    append the assistant message, dispatch every call in order appending a
    tool message each, and start the next round from the transport script.
    Returns the conversation log, the dispatch record, and the outcome
    (Except.error models a transport rejection propagating out). -/
def streamLoop (argParse : Str → Option JsArgs) (exec : Str → JsArgs → ToolResult)
    (tools : Bool) (hist : List Message) (dispatched : List (Str × JsArgs))
    (current : AggregatedResult) (script : List (Except Str AggregatedResult)) :
    List Message × List (Str × JsArgs) × Except Str Str :=
  match current.toolCalls, tools with
  | some tcs, true =>
    let hist2 := hist ++ [assistantToolMessage current tcs]
    let steps := tcs.map (runToolCall argParse exec)
    let hist3 := hist2 ++ steps.map Prod.fst
    let disp2 := dispatched ++ steps.map Prod.snd
    match script with
    | [] => (hist3, disp2, Except.error (str "no response"))
    | Except.error e :: _ => (hist3, disp2, Except.error e)
    | Except.ok next :: rest => streamLoop argParse exec tools hist3 disp2 next rest
  | _, _ => (hist ++ [finalAssistantMessage current], dispatched, Except.ok current.content)

/-- Streaming turn of the part_000 variant: obtain the first round result
    from the transport script and enter the tool-call loop. -/
def sendMessageStreamLoop (argParse : Str → Option JsArgs) (exec : Str → JsArgs → ToolResult)
    (tools : Bool) (hist : List Message) (script : List (Except Str AggregatedResult)) :
    List Message × List (Str × JsArgs) × Except Str Str :=
  match script with
  | [] => (hist, [], Except.error (str "no response"))
  | Except.error e :: _ => (hist, [], Except.error e)
  | Except.ok r :: rest => streamLoop argParse exec tools hist [] r rest

/-- Streaming turn of the index.js variant of sendMessageStream: tool calls
    of the first round are dispatched once, the transport is re-invoked a
    single time, and that second result is committed as the final assistant
    message without rechecking its tool-call list. -/
def sendMessageStreamOnce (argParse : Str → Option JsArgs) (exec : Str → JsArgs → ToolResult)
    (tools : Bool) (hist : List Message) (script : List (Except Str AggregatedResult)) :
    List Message × List (Str × JsArgs) × Except Str Str :=
  match script with
  | [] => (hist, [], Except.error (str "no response"))
  | Except.error e :: _ => (hist, [], Except.error e)
  | Except.ok result :: rest =>
    match result.toolCalls, tools with
    | some tcs, true =>
      let hist2 := hist ++ [assistantToolMessage result tcs]
      let steps := tcs.map (runToolCall argParse exec)
      let hist3 := hist2 ++ steps.map Prod.fst
      let disp := steps.map Prod.snd
      match rest with
      | [] => (hist3, disp, Except.error (str "no response"))
      | Except.error e :: _ => (hist3, disp, Except.error e)
      | Except.ok result2 :: _ =>
        (hist3 ++ [finalAssistantMessage result2], disp, Except.ok result2.content)
    | _, _ => (hist ++ [finalAssistantMessage result], [], Except.ok result.content)

/-- Model of sendMessage on the streaming path: append the user message,
    run the turn, and on any propagated transport error pop the last log
    entry and report no content (the catch branch of sendMessage). -/
def sendMessage (argParse : Str → Option JsArgs) (exec : Str → JsArgs → ToolResult)
    (tools : Bool) (hist : List Message) (userText : Str)
    (script : List (Except Str AggregatedResult)) : List Message × Option Str :=
  let h1 := hist ++ [{ role := Role.user, content := some userText }]
  match sendMessageStreamLoop argParse exec tools h1 script with
  | (h, _, Except.ok content) => (h, some content)
  | (h, _, Except.error _) => (h.dropLast, none)

/-- Count the log messages carrying a given role. -/
def countRole (r : Role) (ms : List Message) : Nat :=
  (ms.filter (fun m => m.role == r)).length

/-- Concrete frame carrying a content delta. -/
def contentFrame (t : String) : Frame :=
  { choices := [{ delta := some { content := some (str t) } }] }

/-- Concrete frame carrying a reasoning delta. -/
def reasoningFrame (t : String) : Frame :=
  { choices := [{ delta := some { reasoning_content := some (str t) } }] }

/-- Concrete complete tool-call delta entry. -/
def toolDelta (i : Nat) (id name args : String) : ToolCallDelta :=
  { index := i
    id := some (str id)
    type := none
    function := some { name := some (str name), arguments := some (str args) } }

/-- Concrete frame wrapping a list of tool-call delta entries. -/
def toolFrameOf (tcs : List ToolCallDelta) : Frame :=
  { choices := [{ delta := some { tool_calls := some tcs } }] }

/-- Concrete frame carrying one complete tool-call delta entry. -/
def toolFrame (i : Nat) (id name args : String) : Frame :=
  toolFrameOf [toolDelta i id name args]

/-- Concrete stand-in for JSON.parse used by the witnesses: a handful of
    short payload tags decode to fixed frames, anything else throws. -/
def demoParse : Str → Option Frame := fun s =>
  if s = str "c1" then some (contentFrame "Hello, ")
  else if s = str "c2" then some (contentFrame "world")
  else if s = str "r1" then some (reasoningFrame "think")
  else if s = str "t0" then some (toolFrame 0 "a" "f" "1")
  else if s = str "t1" then some (toolFrame 1 "b" "g" "2")
  else none

/-- Concrete stand-in for JSON.parse of tool arguments used by witnesses:
    the tag good decodes, anything else throws. -/
def demoArgParse : Str → Option JsArgs := fun s =>
  if s = str "good" then some (JsArgs.other (str "v")) else none

/-- Concrete tool executor used by the closed orchestrator evaluations. -/
def demoExec : Str → JsArgs → ToolResult := fun _ _ => { success := true }

/-- Finalized tool call used by the scripted transport rounds. -/
def demoCallA : ToolCallAcc := ⟨str "call1", str "function", str "read_file", str "good"⟩

/-- Second finalized tool call used by the scripted transport rounds. -/
def demoCallB : ToolCallAcc := ⟨str "call2", str "function", str "web_search", str "oops"⟩

/-- Round result carrying one tool call (round 1 of the script). -/
def demoRound1 : AggregatedResult :=
  { content := str "calling A", reasoning := [], toolCalls := some [demoCallA],
    finishReason := some (str "tool_calls"), usage := none, webSearch := none }

/-- Round result carrying one tool call (round 2 of the script). -/
def demoRound2 : AggregatedResult :=
  { content := [], reasoning := [], toolCalls := some [demoCallB],
    finishReason := some (str "tool_calls"), usage := none, webSearch := none }

/-- Plain-content round result (round 3 of the script). -/
def demoRound3 : AggregatedResult :=
  { content := str "done", reasoning := [], toolCalls := none,
    finishReason := some (str "stop"), usage := none, webSearch := none }

/-- Scripted transport: tool calls on rounds 1 and 2, plain content on
    round 3. -/
def demoScript3 : List (Except Str AggregatedResult) :=
  [Except.ok demoRound1, Except.ok demoRound2, Except.ok demoRound3]

/-- Scripted transport that succeeds on round 1 with a tool call and fails
    on round 2. -/
def demoScriptFail2 : List (Except Str AggregatedResult) :=
  [Except.ok demoRound1, Except.error (str "network down")]

/-- Witness material: lines initializing tool-call slots 1 then 0. -/
def w5lines : List Str := [str "data: t1", str "data: t0"]

/-- Witness material: a data: line whose payload fails to parse. -/
def demoBadLine : Str := str "data: junk"

/-- Per-frame characterization of the content-token callback: the content
    delta fragments (at most one per frame) that trigger onToken. -/
def frameContentTokens (f : Frame) : List Str :=
  match f.choices.head? with
  | none => []
  | some ch =>
    match ch.delta with
    | none => []
    | some d =>
      match d.content with
      | some ct => if ct.isEmpty then [] else [ct]
      | none => []

/-- Per-frame characterization of the reasoning-token callback. -/
def frameReasonTokens (f : Frame) : List Str :=
  match f.choices.head? with
  | none => []
  | some ch =>
    match ch.delta with
    | none => []
    | some d =>
      match d.reasoning_content with
      | some rc => if rc.isEmpty then [] else [rc]
      | none => []

/-- Per-line characterization of the content-token callback invocations:
    the guards mirror processLine, so a skipped or unparseable line emits
    nothing. -/
def lineContentTokens (parse : Str → Option Frame) (line : Str) : List Str :=
  let trimmed := trimChars line
  if trimmed = [] then []
  else if !((str "data:").isPrefixOf trimmed) then []
  else
    let payload := trimChars (trimmed.drop 5)
    if payload = str "[DONE]" then []
    else
      match parse payload with
      | none => []
      | some f => frameContentTokens f

/-- Per-line characterization of the reasoning-token callback invocations. -/
def lineReasonTokens (parse : Str → Option Frame) (line : Str) : List Str :=
  let trimmed := trimChars line
  if trimmed = [] then []
  else if !((str "data:").isPrefixOf trimmed) then []
  else
    let payload := trimChars (trimmed.drop 5)
    if payload = str "[DONE]" then []
    else
      match parse payload with
      | none => []
      | some f => frameReasonTokens f

/-- Fragment 1 of the spec example: index 0, id a, function name f. -/
def fragFrame1 : Frame :=
  toolFrameOf [{ index := 0, id := some (str "a"),
                 function := some { name := some (str "f") } }]

/-- Fragment 2 of the spec example: index 0, first half of the arguments. -/
def fragFrame2 : Frame :=
  toolFrameOf [{ index := 0, function := some { arguments := some (str "\x7b\"x\":") } }]

/-- Fragment 3 of the spec example: index 0, second half of the arguments. -/
def fragFrame3 : Frame :=
  toolFrameOf [{ index := 0, function := some { arguments := some (str "1\x7d") } }]

theorem splitLines_ne_nil (cs : List Char) : splitLines cs ≠ [] := by
  cases cs with
  | nil => simp [splitLines]
  | cons ch rest =>
    simp only [splitLines]
    cases splitLines rest with
    | nil => simp
    | cons l ls =>
      by_cases hc : ch = '\n' <;> simp [hc]

theorem splitParts_eq_splitLines (cs : List Char) :
    splitParts cs = ((splitLines cs).dropLast, (splitLines cs).getLastD []) := by
  induction cs with
  | nil => simp [splitParts, splitLines]
  | cons ch rest ih =>
    obtain ⟨l, ls, h⟩ : ∃ l ls, splitLines rest = l :: ls := by
      cases h : splitLines rest with
      | nil => exact absurd h (splitLines_ne_nil rest)
      | cons l ls => exact ⟨l, ls, rfl⟩
    by_cases hc : ch = '\n'
    · cases ls with
      | nil =>
        simp [splitParts, splitLines, h, hc, ih]
      | cons l2 ls2 =>
        simp [splitParts, splitLines, h, hc, ih, List.getLastD_cons]
    · cases ls with
      | nil =>
        simp [splitParts, splitLines, h, hc, ih]
      | cons l2 ls2 =>
        simp [splitParts, splitLines, h, hc, ih, List.getLastD_cons]

theorem splitParts_no_newline (cs : List Char) : '\n' ∉ (splitParts cs).2 := by
  induction cs with
  | nil => simp [splitParts]
  | cons ch rest ih =>
    cases h : splitParts rest with
    | mk ls buf =>
      rw [h] at ih
      by_cases hc : ch = '\n'
      · simp [splitParts, h, hc]
        exact ih
      · cases ls with
        | nil =>
          simp [splitParts, h, hc]
          exact ⟨fun e => hc e.symm, ih⟩
        | cons l ls2 =>
          simp [splitParts, h, hc]
          exact ih

theorem splitParts_of_no_newline (cs : List Char) (h : '\n' ∉ cs) : splitParts cs = ([], cs) := by
  induction cs with
  | nil => simp [splitParts]
  | cons ch rest ih =>
    have hch : ¬ ch = '\n' := by
      intro e
      exact h (by simp [e])
    have hrest : '\n' ∉ rest := fun m => h (List.mem_cons_of_mem _ m)
    simp [splitParts, ih hrest, hch]

theorem splitParts_cons_newline (rest : List Char) :
    splitParts ('\n' :: rest) = ([] :: (splitParts rest).1, (splitParts rest).2) := by
  cases h : splitParts rest with
  | mk ls buf => simp [splitParts, h]

theorem splitParts_cons_other_nil (ch : Char) (hc : ¬ ch = '\n') (rest : List Char)
    (h : (splitParts rest).1 = []) :
    splitParts (ch :: rest) = ([], ch :: (splitParts rest).2) := by
  cases hp : splitParts rest with
  | mk ls buf =>
    rw [hp] at h
    simp only at h
    subst h
    simp [splitParts, hp, hc]

theorem splitParts_cons_other_cons (ch : Char) (hc : ¬ ch = '\n') (rest : List Char)
    (l : List Char) (ls2 : List (List Char)) (h : (splitParts rest).1 = l :: ls2) :
    splitParts (ch :: rest) = ((ch :: l) :: ls2, (splitParts rest).2) := by
  cases hp : splitParts rest with
  | mk ls buf =>
    rw [hp] at h
    simp only at h
    subst h
    simp [splitParts, hp, hc]

theorem splitParts_append (a : List Char) : ∀ b : List Char,
    splitParts (a ++ b) =
      ((splitParts a).1 ++ (splitParts ((splitParts a).2 ++ b)).1,
       (splitParts ((splitParts a).2 ++ b)).2) := by
  induction a with
  | nil =>
    intro b
    simp [splitParts]
  | cons ch a2 ih =>
    intro b
    by_cases hc : ch = '\n'
    · subst hc
      rw [List.cons_append, splitParts_cons_newline, splitParts_cons_newline, ih b]
      simp
    · cases h1 : (splitParts a2).1 with
      | nil =>
        have e1 := splitParts_cons_other_nil ch hc a2 h1
        cases hq : (splitParts ((splitParts a2).2 ++ b)).1 with
        | nil =>
          have l1 : (splitParts (a2 ++ b)).1 = [] := by
            rw [ih b, h1]
            simpa using hq
          have e2 := splitParts_cons_other_nil ch hc (a2 ++ b) l1
          have e3 := splitParts_cons_other_nil ch hc ((splitParts a2).2 ++ b) hq
          rw [List.cons_append, e2, e1]
          simp only [List.nil_append, List.cons_append, e3]
          rw [ih b]
        | cons q qs =>
          have l1 : (splitParts (a2 ++ b)).1 = q :: qs := by
            rw [ih b, h1]
            simpa using hq
          have e2 := splitParts_cons_other_cons ch hc (a2 ++ b) q qs l1
          have e3 := splitParts_cons_other_cons ch hc ((splitParts a2).2 ++ b) q qs hq
          rw [List.cons_append, e2, e1]
          simp only [List.nil_append, List.cons_append, e3]
          rw [ih b]
      | cons l ls2 =>
        have e1 := splitParts_cons_other_cons ch hc a2 l ls2 h1
        have l1 : (splitParts (a2 ++ b)).1 = l :: (ls2 ++ (splitParts ((splitParts a2).2 ++ b)).1) := by
          rw [ih b, h1]
          simp
        have e2 := splitParts_cons_other_cons ch hc (a2 ++ b) _ _ l1
        rw [List.cons_append, e2, e1]
        rw [ih b]
        simp

theorem feedChunk_eq (parse : Str → Option Frame) (st : DecState) (chunk : Str) :
    feedChunk parse st chunk =
      ⟨(splitParts (st.buffer ++ chunk)).2,
       (splitParts (st.buffer ++ chunk)).1.foldl (processLine parse) st.agg⟩ := by
  simp [feedChunk, splitParts_eq_splitLines]

theorem foldl_feedChunk (parse : Str → Option Frame) (chunks : List Str) :
    ∀ st : DecState, '\n' ∉ st.buffer →
      chunks.foldl (feedChunk parse) st =
        ⟨(splitParts (st.buffer ++ joinAll chunks)).2,
         (splitParts (st.buffer ++ joinAll chunks)).1.foldl (processLine parse) st.agg⟩ := by
  induction chunks with
  | nil =>
    intro st h
    simp [joinAll, splitParts_of_no_newline st.buffer h]
  | cons c cs ih =>
    intro st h
    simp only [List.foldl_cons, joinAll]
    rw [feedChunk_eq]
    have h2 : '\n' ∉ (splitParts (st.buffer ++ c)).2 := splitParts_no_newline _
    rw [ih _ h2]
    have happ := splitParts_append (st.buffer ++ c) (joinAll cs)
    rw [List.append_assoc] at happ
    rw [happ]
    simp [List.foldl_append]

/-- C2: for every full stream text and every way of splitting it into a
    sequence of chunks (including splits in the middle of a line), feeding
    the chunks one at a time to the streaming decoder produces the same
    final aggregated result (content, reasoning, tool calls, finishReason,
    usage, webSearch) as feeding the entire text as a single chunk. The
    quantification over parse makes the statement independent of the JSON
    codec. -/
theorem frame_reassembly_chunk_invariance (parse : Str → Option Frame) (chunks : List Str) :
    runStream parse chunks = runStream parse [joinAll chunks] := by
  unfold runStream
  rw [foldl_feedChunk parse chunks initDec (by simp [initDec]),
      foldl_feedChunk parse [joinAll chunks] initDec (by simp [initDec])]
  simp [joinAll]

theorem joinAll_append (xs ys : List Str) : joinAll (xs ++ ys) = joinAll xs ++ joinAll ys := by
  induction xs with
  | nil => simp [joinAll]
  | cons x xs ih => simp [joinAll, ih]

theorem processFrame_content_tokens (s : AggState) (f : Frame) :
    (processFrame s f).content = s.content ++ joinAll (frameContentTokens f) ∧
    (processFrame s f).tokenEvents = s.tokenEvents ++ frameContentTokens f := by
  simp only [processFrame, frameContentTokens]
  repeat' split
  all_goals simp_all [joinAll]

theorem processFrame_reason_tokens (s : AggState) (f : Frame) :
    (processFrame s f).reasoning = s.reasoning ++ joinAll (frameReasonTokens f) ∧
    (processFrame s f).reasonEvents = s.reasonEvents ++ frameReasonTokens f := by
  simp only [processFrame, frameReasonTokens]
  repeat' split
  all_goals simp_all [joinAll]

theorem processLine_content_tokens (parse : Str → Option Frame) (s : AggState) (line : Str) :
    (processLine parse s line).content = s.content ++ joinAll (lineContentTokens parse line) ∧
    (processLine parse s line).tokenEvents = s.tokenEvents ++ lineContentTokens parse line := by
  simp only [processLine, lineContentTokens]
  repeat' split
  all_goals simp_all [joinAll]
  all_goals exact processFrame_content_tokens s _

theorem processLine_reason_tokens (parse : Str → Option Frame) (s : AggState) (line : Str) :
    (processLine parse s line).reasoning = s.reasoning ++ joinAll (lineReasonTokens parse line) ∧
    (processLine parse s line).reasonEvents = s.reasonEvents ++ lineReasonTokens parse line := by
  simp only [processLine, lineReasonTokens]
  repeat' split
  all_goals simp_all [joinAll]
  all_goals exact processFrame_reason_tokens s _

theorem foldl_processLine_tokens (parse : Str → Option Frame) (lines : List Str) :
    ∀ s : AggState,
      (lines.foldl (processLine parse) s).content
          = s.content ++ joinAll ((lines.map (lineContentTokens parse)).flatten) ∧
      (lines.foldl (processLine parse) s).tokenEvents
          = s.tokenEvents ++ (lines.map (lineContentTokens parse)).flatten ∧
      (lines.foldl (processLine parse) s).reasoning
          = s.reasoning ++ joinAll ((lines.map (lineReasonTokens parse)).flatten) ∧
      (lines.foldl (processLine parse) s).reasonEvents
          = s.reasonEvents ++ (lines.map (lineReasonTokens parse)).flatten := by
  induction lines with
  | nil =>
    intro s
    simp [joinAll]
  | cons line rest ih =>
    intro s
    obtain ⟨hc, ht⟩ := processLine_content_tokens parse s line
    obtain ⟨hr, he⟩ := processLine_reason_tokens parse s line
    obtain ⟨ic, it, ir, ie⟩ := ih (processLine parse s line)
    refine ⟨?_, ?_, ?_, ?_⟩
    · rw [List.foldl_cons, ic, hc]
      simp [joinAll_append, List.append_assoc]
    · rw [List.foldl_cons, it, ht]
      simp [List.append_assoc]
    · rw [List.foldl_cons, ir, hr]
      simp [joinAll_append, List.append_assoc]
    · rw [List.foldl_cons, ie, he]
      simp [List.append_assoc]

/-- C10: the content of a decoded stream is the concatenation, in arrival
    order, of exactly the fragments handed to the onToken callback, and the
    reasoning is the concatenation of the onReasoning fragments; moreover
    the callbacks fire once per non-empty delta fragment, in stream order
    (the event lists coincide with the per-line fragment extraction). -/
theorem content_is_token_concatenation (parse : Str → Option Frame) (chunks : List Str) :
    (streamAgg parse chunks).content = joinAll ((streamAgg parse chunks).tokenEvents) ∧
    (streamAgg parse chunks).reasoning = joinAll ((streamAgg parse chunks).reasonEvents) ∧
    (streamAgg parse chunks).tokenEvents
        = ((splitParts (joinAll chunks)).1.map (lineContentTokens parse)).flatten ∧
    (streamAgg parse chunks).reasonEvents
        = ((splitParts (joinAll chunks)).1.map (lineReasonTokens parse)).flatten := by
  have hs : streamAgg parse chunks
      = (splitParts (joinAll chunks)).1.foldl (processLine parse) initAgg := by
    unfold streamAgg
    rw [foldl_feedChunk parse chunks initDec (by simp [initDec])]
    simp [initDec]
  obtain ⟨hc, ht, hr, he⟩ :=
    foldl_processLine_tokens parse (splitParts (joinAll chunks)).1 initAgg
  rw [hs]
  refine ⟨?_, ?_, ?_, ?_⟩
  · rw [hc, ht]
    simp [initAgg]
  · rw [hr, he]
    simp [initAgg]
  · rw [ht]
    simp [initAgg]
  · rw [he]
    simp [initAgg]

theorem processLine_skip_of_unparseable (parse : Str → Option Frame) (s : AggState) (line : Str)
    (h : parse (trimChars ((trimChars line).drop 5)) = none) :
    processLine parse s line = s := by
  simp only [processLine]
  repeat' split
  all_goals simp_all

/-- C7: inserting a data: line whose payload is not parseable JSON between
    two valid frames does not change the final aggregated result compared
    to the same stream with that line removed, and processing of subsequent
    frames continues (the suffix is still folded). -/
theorem malformed_data_line_tolerated (parse : Str → Option Frame) (pre post : List Str)
    (bad : Str) (_hpre : ((str "data:").isPrefixOf (trimChars bad)) = true)
    (h : parse (trimChars ((trimChars bad).drop 5)) = none) :
    runLines parse (pre ++ bad :: post) = runLines parse (pre ++ post) := by
  unfold runLines linesAgg
  rw [List.foldl_append, List.foldl_append, List.foldl_cons,
      processLine_skip_of_unparseable parse _ bad h]

/-- Witness for C7 at a concrete malformed line between two valid frames. -/
theorem malformed_data_line_tolerated_witness :
    (((str "data:").isPrefixOf (trimChars demoBadLine)) = true) ∧
    runLines demoParse [str "data: c1", demoBadLine, str "data: c2"]
      = runLines demoParse [str "data: c1", str "data: c2"] :=
  ⟨by decide,
   malformed_data_line_tolerated demoParse [str "data: c1"] [str "data: c2"] demoBadLine
     (by decide) (by decide)⟩

/-- C8: folding, in arrival order, the three tool-call delta fragments of
    the spec example yields a single finalized tool call with id a, name f,
    and arguments equal to the concatenation of the two fragments: the name
    is set once and argument fragments are concatenated, not overwritten. -/
theorem tool_call_fragment_concatenation :
    (finalize ([fragFrame1, fragFrame2, fragFrame3].foldl processFrame initAgg)).toolCalls
      = some [⟨str "a", str "function", str "f", str "\x7b\"x\":1\x7d"⟩] := by
  decide

theorem modifyKey_keys (m : List (Nat × ToolCallAcc)) (k : Nat) (f : ToolCallAcc → ToolCallAcc) :
    (modifyKey m k f).map Prod.fst = m.map Prod.fst := by
  induction m with
  | nil => simp [modifyKey]
  | cons p rest ih =>
    cases p with
    | mk k0 v0 => by_cases h : k0 = k <;> simp [modifyKey, h, ih]

theorem modifyKey_length (m : List (Nat × ToolCallAcc)) (k : Nat) (f : ToolCallAcc → ToolCallAcc) :
    (modifyKey m k f).length = m.length := by
  have h := congrArg List.length (modifyKey_keys m k f)
  simpa using h

theorem mem_keys_setKey (m : List (Nat × ToolCallAcc)) (k : Nat) (v : ToolCallAcc) (x : Nat)
    (hx : x ∈ (setKey m k v).map Prod.fst) : x ∈ m.map Prod.fst ∨ x = k := by
  induction m with
  | nil =>
    simp [setKey] at hx
    exact Or.inr hx
  | cons p rest ih =>
    cases p with
    | mk k0 v0 =>
      by_cases h : k0 = k
      · simp [setKey, h] at hx
        rcases hx with h1 | h1
        · exact Or.inr h1
        · exact Or.inl (by simp [h1])
      · simp [setKey, h] at hx
        rcases hx with h1 | h1
        · exact Or.inl (by simp [h1])
        · rcases ih (by simpa using h1) with h2 | h2
          · exact Or.inl (by simp; exact Or.inr (by simpa using h2))
          · exact Or.inr h2

theorem setKey_nodup (m : List (Nat × ToolCallAcc)) (k : Nat) (v : ToolCallAcc)
    (h : (m.map Prod.fst).Nodup) : ((setKey m k v).map Prod.fst).Nodup := by
  induction m with
  | nil => simp [setKey]
  | cons p rest ih =>
    cases p with
    | mk k0 v0 =>
      rw [List.map_cons, List.nodup_cons] at h
      obtain ⟨hnotin, hrest⟩ := h
      by_cases hk : k0 = k
      · subst hk
        have hstep : setKey ((k0, v0) :: rest) k0 v = (k0, v) :: rest := by
          simp [setKey]
        rw [hstep, List.map_cons, List.nodup_cons]
        exact ⟨hnotin, hrest⟩
      · have hstep : setKey ((k0, v0) :: rest) k v = (k0, v0) :: setKey rest k v := by
          simp [setKey, hk]
        rw [hstep, List.map_cons, List.nodup_cons]
        refine ⟨?_, ih hrest⟩
        intro hmem
        rcases mem_keys_setKey rest k v k0 hmem with h1 | h1
        · exact hnotin h1
        · exact hk h1

theorem setKey_length_mono (m : List (Nat × ToolCallAcc)) (k : Nat) (v : ToolCallAcc) :
    m.length ≤ (setKey m k v).length := by
  induction m with
  | nil => simp [setKey]
  | cons p rest ih =>
    cases p with
    | mk k0 v0 =>
      by_cases h : k0 = k <;> simp [setKey, h]
      exact ih

theorem applyTcDelta_nodup (m : List (Nat × ToolCallAcc)) (tc : ToolCallDelta)
    (h : (m.map Prod.fst).Nodup) : ((applyTcDelta m tc).map Prod.fst).Nodup := by
  simp only [applyTcDelta]
  repeat' split
  all_goals (try simp only [modifyKey_keys])
  all_goals first
    | exact h
    | exact setKey_nodup _ _ _ h

theorem applyTcDelta_length_mono (m : List (Nat × ToolCallAcc)) (tc : ToolCallDelta) :
    m.length ≤ (applyTcDelta m tc).length := by
  simp only [applyTcDelta]
  repeat' split
  all_goals (try simp only [modifyKey_length])
  all_goals first
    | exact Nat.le_refl _
    | exact setKey_length_mono _ _ _

theorem foldl_applyTcDelta_nodup (tcs : List ToolCallDelta) :
    ∀ m : List (Nat × ToolCallAcc), (m.map Prod.fst).Nodup →
      ((tcs.foldl applyTcDelta m).map Prod.fst).Nodup := by
  induction tcs with
  | nil =>
    intro m h
    simpa using h
  | cons tc rest ih =>
    intro m h
    exact ih _ (applyTcDelta_nodup m tc h)

theorem foldl_applyTcDelta_length_mono (tcs : List ToolCallDelta) :
    ∀ m : List (Nat × ToolCallAcc), m.length ≤ (tcs.foldl applyTcDelta m).length := by
  induction tcs with
  | nil =>
    intro m
    simp
  | cons tc rest ih =>
    intro m
    exact Nat.le_trans (applyTcDelta_length_mono m tc) (ih _)

theorem processFrame_toolCalls_nodup (s : AggState) (f : Frame)
    (h : (s.toolCalls.map Prod.fst).Nodup) :
    ((processFrame s f).toolCalls.map Prod.fst).Nodup := by
  simp only [processFrame]
  repeat' split
  all_goals first
    | exact h
    | exact foldl_applyTcDelta_nodup _ _ h

theorem processFrame_toolCalls_length_mono (s : AggState) (f : Frame) :
    s.toolCalls.length ≤ (processFrame s f).toolCalls.length := by
  simp only [processFrame]
  repeat' split
  all_goals first
    | exact Nat.le_refl _
    | exact foldl_applyTcDelta_length_mono _ _

theorem processLine_toolCalls_nodup (parse : Str → Option Frame) (s : AggState) (line : Str)
    (h : (s.toolCalls.map Prod.fst).Nodup) :
    ((processLine parse s line).toolCalls.map Prod.fst).Nodup := by
  simp only [processLine]
  repeat' split
  all_goals first
    | exact h
    | exact processFrame_toolCalls_nodup _ _ h

theorem processLine_toolCalls_length_mono (parse : Str → Option Frame) (s : AggState) (line : Str) :
    s.toolCalls.length ≤ (processLine parse s line).toolCalls.length := by
  simp only [processLine]
  repeat' split
  all_goals first
    | exact Nat.le_refl _
    | exact processFrame_toolCalls_length_mono _ _

theorem foldl_processLine_toolCalls_nodup (parse : Str → Option Frame) (lines : List Str) :
    ∀ s : AggState, (s.toolCalls.map Prod.fst).Nodup →
      ((lines.foldl (processLine parse) s).toolCalls.map Prod.fst).Nodup := by
  induction lines with
  | nil =>
    intro s h
    simpa using h
  | cons line rest ih =>
    intro s h
    exact ih _ (processLine_toolCalls_nodup parse s line h)

theorem foldl_processLine_toolCalls_length_mono (parse : Str → Option Frame) (lines : List Str) :
    ∀ s : AggState, s.toolCalls.length ≤ ((lines.foldl (processLine parse) s).toolCalls).length := by
  induction lines with
  | nil =>
    intro s
    simp
  | cons line rest ih =>
    intro s
    exact Nat.le_trans (processLine_toolCalls_length_mono parse s line) (ih _)

theorem linesAgg_keys_nodup (parse : Str → Option Frame) (lines : List Str) :
    (((linesAgg parse lines).toolCalls).map Prod.fst).Nodup := by
  unfold linesAgg
  exact foldl_processLine_toolCalls_nodup parse lines initAgg (by simp [initAgg])

theorem insertByKey_perm (p : Nat × ToolCallAcc) (l : List (Nat × ToolCallAcc)) :
    (insertByKey p l).Perm (p :: l) := by
  induction l with
  | nil => simp [insertByKey]
  | cons q rest ih =>
    simp only [insertByKey]
    split
    · exact List.Perm.refl _
    · exact (ih.cons q).trans (List.Perm.swap p q rest)

theorem objEntries_perm (m : List (Nat × ToolCallAcc)) : (objEntries m).Perm m := by
  induction m with
  | nil => simp [objEntries]
  | cons p rest ih =>
    exact (insertByKey_perm p (objEntries rest)).trans (ih.cons p)

theorem insertByKey_pairwise (p : Nat × ToolCallAcc) (l : List (Nat × ToolCallAcc))
    (h : l.Pairwise (fun a b => a.1 ≤ b.1)) :
    (insertByKey p l).Pairwise (fun a b => a.1 ≤ b.1) := by
  induction l with
  | nil => simp [insertByKey]
  | cons q rest ih =>
    rw [List.pairwise_cons] at h
    obtain ⟨hq, hrest⟩ := h
    simp only [insertByKey]
    split
    · rename_i hle
      refine List.Pairwise.cons ?_ (List.Pairwise.cons hq hrest)
      intro x hx
      rcases List.mem_cons.mp hx with h1 | h2
      · rw [h1]
        exact hle
      · exact Nat.le_trans hle (hq x h2)
    · rename_i hgt
      have hqp : q.1 ≤ p.1 := Nat.le_of_lt (Nat.lt_of_not_le hgt)
      refine List.Pairwise.cons ?_ (ih hrest)
      intro x hx
      have hx2 : x ∈ p :: rest := (insertByKey_perm p rest).mem_iff.mp hx
      rcases List.mem_cons.mp hx2 with h1 | h2
      · rw [h1]
        exact hqp
      · exact hq x h2

theorem objEntries_pairwise (m : List (Nat × ToolCallAcc)) :
    (objEntries m).Pairwise (fun a b => a.1 ≤ b.1) := by
  induction m with
  | nil => simp [objEntries]
  | cons p rest ih => exact insertByKey_pairwise p (objEntries rest) ih

theorem pairwise_key_lt_of_nodup (l : List (Nat × ToolCallAcc))
    (hle : l.Pairwise (fun a b => a.1 ≤ b.1)) (hnd : (l.map Prod.fst).Nodup) :
    l.Pairwise (fun a b => a.1 < b.1) := by
  have hne : l.Pairwise (fun a b => a.1 ≠ b.1) := by
    rw [List.Nodup, List.pairwise_map] at hnd
    exact hnd
  exact (hle.and hne).imp (fun h => Nat.lt_of_le_of_ne h.1 h.2)

theorem eq_of_perm_of_pairwise_key_lt (l1 : List (Nat × ToolCallAcc)) :
    ∀ l2 : List (Nat × ToolCallAcc), l1.Perm l2 →
      l1.Pairwise (fun a b => a.1 < b.1) → l2.Pairwise (fun a b => a.1 < b.1) → l1 = l2 := by
  induction l1 with
  | nil =>
    intro l2 hp _ _
    have := hp.symm.eq_nil
    rw [this]
  | cons a t ih =>
    intro l2 hp h1 h2
    cases l2 with
    | nil =>
      have := hp.eq_nil
      simp at this
    | cons b t2 =>
      have hab : a = b := by
        have ha2 : a ∈ b :: t2 := hp.mem_iff.mp (List.mem_cons_self a t)
        have hb1 : b ∈ a :: t := hp.symm.mem_iff.mp (List.mem_cons_self b t2)
        rcases List.mem_cons.mp ha2 with h | h
        · exact h
        · rcases List.mem_cons.mp hb1 with h3 | h3
          · exact h3.symm
          · have hba : b.1 < a.1 := (List.pairwise_cons.mp h2).1 a h
            have hab2 : a.1 < b.1 := (List.pairwise_cons.mp h1).1 b h3
            exact absurd (Nat.lt_trans hba hab2) (Nat.lt_irrefl _)
      subst hab
      have ht : t.Perm t2 := hp.cons_inv
      rw [ih t2 ht (List.pairwise_cons.mp h1).2 (List.pairwise_cons.mp h2).2]

theorem objEntries_eq_of_perm (m acc : List (Nat × ToolCallAcc)) (hperm : m.Perm acc)
    (hnd : (acc.map Prod.fst).Nodup) : objEntries m = objEntries acc := by
  apply eq_of_perm_of_pairwise_key_lt
  · exact (objEntries_perm m).trans (hperm.trans (objEntries_perm acc).symm)
  · apply pairwise_key_lt_of_nodup _ (objEntries_pairwise m)
    have hkeys : ((objEntries m).map Prod.fst).Perm (acc.map Prod.fst) :=
      ((objEntries_perm m).trans hperm).map Prod.fst
    exact hkeys.nodup_iff.mpr hnd
  · apply pairwise_key_lt_of_nodup _ (objEntries_pairwise acc)
    exact ((objEntries_perm acc).map Prod.fst).nodup_iff.mpr hnd

/-- C5: on stream end the sparse index-keyed tool-call accumulator is
    converted into a list ordered by ascending index (first conjunct),
    containing exactly the accumulated slots (second conjunct), and the
    conversion is independent of the order in which the slots were first
    initialized: any reordering of the accumulator finalizes to the same
    list (third conjunct). -/
theorem tool_call_finalize_sorted (parse : Str → Option Frame) (lines : List Str) :
    (objEntries ((linesAgg parse lines).toolCalls)).Pairwise (fun a b => a.1 ≤ b.1) ∧
    (objEntries ((linesAgg parse lines).toolCalls)).Perm ((linesAgg parse lines).toolCalls) ∧
    (∀ m : List (Nat × ToolCallAcc), m.Perm ((linesAgg parse lines).toolCalls) →
        objEntries m = objEntries ((linesAgg parse lines).toolCalls)) := by
  refine ⟨objEntries_pairwise _, objEntries_perm _, ?_⟩
  intro m hm
  exact objEntries_eq_of_perm m _ hm (linesAgg_keys_nodup parse lines)

/-- Witness for C5: slots initialized in the order 1 then 0 finalize to the
    same list as the key-ascending ordering of the same slots. -/
theorem tool_call_finalize_sorted_witness :
    objEntries [(0, ⟨str "a", str "function", str "f", str "1"⟩),
                (1, ⟨str "b", str "function", str "g", str "2"⟩)]
      = objEntries ((linesAgg demoParse w5lines).toolCalls) :=
  (tool_call_finalize_sorted demoParse w5lines).2.2
    [(0, ⟨str "a", str "function", str "f", str "1"⟩),
     (1, ⟨str "b", str "function", str "g", str "2"⟩)] (by decide)

theorem objValues_length (m : List (Nat × ToolCallAcc)) : (objValues m).length = m.length := by
  unfold objValues
  rw [List.length_map]
  exact (objEntries_perm m).length_eq

/-- C4: the finalized toolCalls value handed to the completion callback and
    returned by the decoder is null exactly when the sparse accumulator is
    empty, is never an empty list, and an empty final accumulator means no
    slot was ever created during streaming (the accumulator of every prefix
    of the line stream is empty as well, since slots are never removed). -/
theorem tool_calls_null_convention (parse : Str → Option Frame) (lines : List Str) :
    ((runLines parse lines).toolCalls = none ↔ (linesAgg parse lines).toolCalls = []) ∧
    (∀ l, (runLines parse lines).toolCalls = some l → l ≠ []) ∧
    (∀ pre suf, lines = pre ++ suf → (linesAgg parse lines).toolCalls = [] →
        (linesAgg parse pre).toolCalls = []) := by
  refine ⟨?_, ?_, ?_⟩
  · unfold runLines finalize
    simp only
    constructor
    · intro h
      by_cases hlen : (objValues (linesAgg parse lines).toolCalls).length > 0
      · rw [if_pos hlen] at h
        exact absurd h (by simp)
      · have : (linesAgg parse lines).toolCalls.length = 0 := by
          rw [← objValues_length]
          omega
        exact List.length_eq_zero.mp this
    · intro h
      have : (objValues (linesAgg parse lines).toolCalls).length = 0 := by
        rw [objValues_length, h]
        rfl
      rw [if_neg (by omega)]
  · intro l hl
    unfold runLines finalize at hl
    simp only at hl
    by_cases hlen : (objValues (linesAgg parse lines).toolCalls).length > 0
    · rw [if_pos hlen] at hl
      have : l = objValues (linesAgg parse lines).toolCalls := by
        injection hl with h
        exact h.symm
      rw [this]
      intro hnil
      rw [hnil] at hlen
      simp at hlen
    · rw [if_neg hlen] at hl
      exact absurd hl (by simp)
  · intro pre suf hsplit hempty
    rw [hsplit] at hempty
    unfold linesAgg at hempty ⊢
    rw [List.foldl_append] at hempty
    have hmono := foldl_processLine_toolCalls_length_mono parse suf
      (pre.foldl (processLine parse) initAgg)
    rw [hempty] at hmono
    simp at hmono
    exact List.length_eq_zero.mp (Nat.le_zero.mp (by simpa using hmono))

/-- Witness for C4: a stream with one tool-call frame finalizes to a
    non-empty list, and a final empty accumulator forces every prefix
    accumulator to be empty. -/
theorem tool_calls_null_convention_witness :
    (([(⟨str "a", str "function", str "f", str "1"⟩ : ToolCallAcc)] : List ToolCallAcc) ≠ []) ∧
    (linesAgg demoParse [str "hello"]).toolCalls = [] :=
  ⟨(tool_calls_null_convention demoParse [str "data: t0"]).2.1 _ (by decide),
   (tool_calls_null_convention demoParse ([str "hello"] ++ [str "data: junk"])).2.2
     [str "hello"] [str "data: junk"] rfl (by decide)⟩

/-- C6: with no approval channel configured (the readline instance is
    absent), the approval answer resolves to n, the run_with_approval tool
    returns success false and denied true, and the underlying command
    dispatcher is never invoked (the invocation record is empty), whatever
    the dispatcher would have returned. -/
theorem approval_deny_by_default (dispatch : Str → ToolResult) (args : ApprovalArgs) (q : Str) :
    runWithApproval none dispatch args
        = ({ success := false, denied := true, message := some deniedMessage }, []) ∧
    promptUser none q = str "n" := by
  refine ⟨?_, rfl⟩
  unfold runWithApproval
  rw [if_neg (by decide)]

/-- C9: the orchestrator decodes the arguments of every dispatched tool
    call with a fallback to the empty object: a failed JSON decode yields
    the empty object, a successful decode is passed through unchanged, the
    tool is dispatched either way, and the round still appends exactly one
    tool message per call (the turn is not aborted). -/
theorem malformed_tool_args_empty_object (argParse : Str → Option JsArgs)
    (exec : Str → JsArgs → ToolResult) (tc : ToolCallAcc) (tcs : List ToolCallAcc) :
    ((runToolCall argParse exec tc).2 = (tc.name, parseToolArgs argParse tc.args)) ∧
    (argParse tc.args = none → (runToolCall argParse exec tc).2.2 = JsArgs.obj []) ∧
    (∀ v, argParse tc.args = some v → (runToolCall argParse exec tc).2.2 = v) ∧
    ((runToolCall argParse exec tc).1.role = Role.tool) ∧
    ((runToolCall argParse exec tc).1.content
        = some (stringifyResult (exec tc.name (parseToolArgs argParse tc.args)))) ∧
    ((tcs.map (runToolCall argParse exec)).map Prod.fst).length = tcs.length := by
  refine ⟨rfl, ?_, ?_, rfl, rfl, by simp⟩
  · intro h
    simp [runToolCall, parseToolArgs, h]
  · intro v h
    simp [runToolCall, parseToolArgs, h]

/-- Witness for C9: an unparseable arguments string dispatches with the
    empty object, a parseable one dispatches with the decoded value. -/
theorem malformed_tool_args_empty_object_witness :
    (runToolCall demoArgParse demoExec demoCallB).2.2 = JsArgs.obj [] ∧
    (runToolCall demoArgParse demoExec demoCallA).2.2 = JsArgs.other (str "v") :=
  ⟨(malformed_tool_args_empty_object demoArgParse demoExec demoCallB []).2.1 (by decide),
   (malformed_tool_args_empty_object demoArgParse demoExec demoCallA []).2.2.1
     (JsArgs.other (str "v")) (by decide)⟩

/-- C1: evaluation of both sendMessageStream variants on the scripted
    transport that returns one tool call on each of rounds 1 and 2 and
    plain content on round 3. The looping variant (part_000) dispatches 2
    tools and appends 3 assistant plus 2 tool messages, as the claim
    states; the index.js variant stops after one tool round, dispatching 1
    tool and appending 2 assistant plus 1 tool message, dropping the
    round-2 tool calls. -/
theorem tool_loop_round_counts :
    (countRole Role.assistant ((sendMessageStreamLoop demoArgParse demoExec true [] demoScript3).1) = 3 ∧
     countRole Role.tool ((sendMessageStreamLoop demoArgParse demoExec true [] demoScript3).1) = 2 ∧
     ((sendMessageStreamLoop demoArgParse demoExec true [] demoScript3).2.1).length = 2 ∧
     (sendMessageStreamLoop demoArgParse demoExec true [] demoScript3).2.2 = Except.ok (str "done")) ∧
    (countRole Role.assistant ((sendMessageStreamOnce demoArgParse demoExec true [] demoScript3).1) = 2 ∧
     countRole Role.tool ((sendMessageStreamOnce demoArgParse demoExec true [] demoScript3).1) = 1 ∧
     ((sendMessageStreamOnce demoArgParse demoExec true [] demoScript3).2.1).length = 1) := by
  refine ⟨⟨?_, ?_, ?_, ?_⟩, ?_, ?_, ?_⟩ <;> rfl

/-- C3 counterexample: with an empty prior log, a turn whose first round
    returns a tool call and whose second round fails leaves the user
    message and the first assistant message in the log: the log is not
    rolled back to its pre-turn state (the empty list), because the catch
    branch pops only the most recently appended message. -/
theorem rollback_multi_round_counterexample :
    (sendMessage demoArgParse demoExec true [] (str "hi") demoScriptFail2).1
        = [{ role := Role.user, content := some (str "hi") },
           assistantToolMessage demoRound1 [demoCallA]] ∧
    (sendMessage demoArgParse demoExec true [] (str "hi") demoScriptFail2).1 ≠ [] := by
  refine ⟨rfl, by decide⟩

/-- C3 amended: when the transport call of the FIRST round of a turn fails,
    sendMessage pops the just-appended user message and the conversation
    log is exactly what it was before the turn, for every prior log state
    (a failure in a later round removes only the last appended message). -/
theorem rollback_first_round_failure (argParse : Str → Option JsArgs)
    (exec : Str → JsArgs → ToolResult) (tools : Bool) (hist : List Message) (userText : Str)
    (e : Str) (rest : List (Except Str AggregatedResult)) :
    sendMessage argParse exec tools hist userText (Except.error e :: rest) = (hist, none) := by
  unfold sendMessage sendMessageStreamLoop
  simp
